import Mathlib

/-!
Shallow embedding of the `ring-leitmotif` dataset-construction code
(`src/dataset.py` and `src/data/convert.py`).

Seconds are embedded as rationals (`ℚ`), Python ints as `ℤ`, tensors as
structures carrying their row/column counts together with a total entry
function.  Python's `round` (banker's rounding, `int(round ...)`) is
embedded as `pyRound`, Python's clamping slice/index semantics as
`pyIdx` / `pySlice` / `pyGet`, and Python's `//` on ints as `Int.fdiv`.

The helper module `data_utils` (`motif2idx`, `sample_instance_intervals`,
`generate_non_overlapping_intervals`, `sample_non_overlapping_interval`)
is imported by `src/dataset.py` but is not part of the sources; the
definitions below that stand in for it are modelled from the spec and are
marked as such in their doc comments.
-/

/-- Python `int(round x)` on a rational: round to the nearest integer,
ties to the even integer (banker's rounding, as in Python 3). -/
def pyRound (q : ℚ) : ℤ :=
  if q - ⌊q⌋ < 1/2 then ⌊q⌋
  else if 1/2 < q - ⌊q⌋ then ⌊q⌋ + 1
  else if 2 ∣ ⌊q⌋ then ⌊q⌋ else ⌊q⌋ + 1

/-- Normalize a Python sequence index `i` against length `n` the way
slice bounds are normalized: negative indices count from the end, and the
result is clamped into `[0, n]`. -/
def pyIdx (n : ℕ) (i : ℤ) : ℕ :=
  if 0 ≤ i then min i.toNat n else ((n : ℤ) + i).toNat

/-- Python list indexing `l[i]`: negative indices count from the end;
an out-of-range index raises `IndexError`, embedded as `none`. -/
def pyGet {α : Type} (l : List α) (i : ℤ) : Option α :=
  if 0 ≤ i then l.get? i.toNat
  else if 0 ≤ (l.length : ℤ) + i then l.get? ((l.length : ℤ) + i).toNat
  else none

/-- A 2-d tensor: row count, column count, and a total entry function
(only indices below the bounds are meaningful). -/
structure Mat where
  rows : ℕ
  cols : ℕ
  entry : ℕ → ℕ → ℚ

/-- Python/torch row slice `M[s:e, :]` with clamping semantics. -/
def pySlice (M : Mat) (s e : ℤ) : Mat :=
  { rows := pyIdx M.rows e - pyIdx M.rows s
    cols := M.cols
    entry := fun i j => M.entry (pyIdx M.rows s + i) j }

/-- torch.zeros((r, c)). -/
def zerosMat (r c : ℕ) : Mat :=
  { rows := r, cols := c, entry := fun _ _ => 0 }

/-- One entry of `self.samples` (line 50 of `src/dataset.py`):
`(version, act, motif, start_frame, end_frame)`. -/
structure PosSample where
  version : String
  act : String
  motif : String
  startF : ℤ
  endF : ℤ

/-- One entry of `self.none_samples` (line 68 of `src/dataset.py`):
`(version, act, start_frame, end_frame)`. -/
structure NegSample where
  version : String
  act : String
  startF : ℤ
  endF : ℤ

/-- The state a built `LeitmotifDataset` holds: the per-recording CQT
matrices and ground-truth tensors (keyed by the `"version_act"` file
stem) and the positive / negative sample lists. -/
structure LeitmotifDataset where
  cqt : String → Mat
  instances_gt : String → Mat
  samples : List PosSample
  none_samples : List NegSample

/-- Key `f"{version}_{act}"` used for `self.cqt` and `self.instances_gt`. -/
def fnOf (version act : String) : String := version ++ "_" ++ act

/-- `total_duration = self.cqt[fn.stem].shape[0] * 512 // 22050`
(line 28 of `src/dataset.py`). -/
def totalDurationSec (numFrames : ℕ) : ℕ := numFrames * 512 / 22050

/-- `LeitmotifDataset.__getitem__` (lines 127-136 of `src/dataset.py`).
An `IndexError` from Python list indexing is embedded as `none`. -/
def getitem (d : LeitmotifDataset) (idx : ℤ) : Option (Mat × Mat) :=
  if idx < (d.samples.length : ℤ) then
    (pyGet d.samples idx).map (fun p =>
      (pySlice (d.cqt (fnOf p.version p.act)) p.startF p.endF,
       pySlice (d.instances_gt (fnOf p.version p.act)) p.startF p.endF))
  else
    (pyGet d.none_samples (idx - d.samples.length)).map (fun q =>
      (pySlice (d.cqt (fnOf q.version q.act)) q.startF q.endF,
       zerosMat (q.endF - q.startF).toNat 21))

/-- Python comprehension `[f i x for (i, x) in enumerate(l) if P x]`, with
the enumeration counter starting from an arbitrary base. -/
def enumComp {α β : Type} (f : ℕ → α → β) (P : α → Bool) : ℕ → List α → List β
  | _, [] => []
  | i, x :: xs => if P x then f i x :: enumComp f P (i+1) xs else enumComp f P (i+1) xs

/-- `LeitmotifDataset.get_subset_idxs` (lines 71-85 of `src/dataset.py`). -/
def get_subset_idxs (d : LeitmotifDataset)
    (versions acts : Option (List String)) : List ℕ :=
  match versions, acts with
  | none, none => List.range (d.samples.length + d.none_samples.length)
  | none, some as' =>
      enumComp (fun i _ => i) (fun x => as'.contains x.act) 0 d.samples ++
      (enumComp (fun i _ => i) (fun x => as'.contains x.act) 0 d.none_samples).map
        (· + d.samples.length)
  | some vs, none =>
      enumComp (fun i _ => i) (fun x => vs.contains x.version) 0 d.samples ++
      (enumComp (fun i _ => i) (fun x => vs.contains x.version) 0 d.none_samples).map
        (· + d.samples.length)
  | some vs, some as' =>
      enumComp (fun i _ => i)
        (fun x => vs.contains x.version && as'.contains x.act) 0 d.samples ++
      (enumComp (fun i _ => i)
        (fun x => vs.contains x.version && as'.contains x.act) 0 d.none_samples).map
        (· + d.samples.length)

/-- Frame-to-second conversion used by `query_motif`:
`x[3] * 512 // 22050` (line 92 of `src/dataset.py`; Python `//` is floor
division, `Int.fdiv`). -/
def querySec (frame : ℤ) : ℤ := Int.fdiv (frame * 512) 22050

/-- `LeitmotifDataset.query_motif` (lines 87-96 of `src/dataset.py`):
returns `none` when no positive sample carries the motif. -/
def query_motif (d : LeitmotifDataset) (motif : String) :
    Option (List (ℕ × String × String × ℤ × ℤ)) :=
  let ms := enumComp
    (fun i x => (i, x.version, x.act, querySec x.startF, querySec x.endF))
    (fun x => x.motif == motif) 0 d.samples
  if 0 < ms.length then some ms else none

/-- Second-to-frame conversion `int(round(sec * 22050 / 512))` used on
lines 37-38, 50 and 68 of `src/dataset.py`. -/
def secToFrame (sec : ℚ) : ℤ := pyRound (sec * 22050 / 512)

/-- Modelled from the spec: `sample_instance_intervals` (in `data_utils`,
which is not among the sources) chooses, per §4.2, a deterministic window
start at or near the start of the annotated instance: for an instance at
least as long as the window, at the instance start (clamped to end at or
before the instance end); for a shorter instance, at the instance start
clamped into the recording bounds `[0, T - durSec]`. -/
def positiveStart (start_sec end_sec durSec T : ℚ) : ℚ :=
  if durSec ≤ end_sec - start_sec then min start_sec (end_sec - durSec)
  else max 0 (min start_sec (T - durSec))

/-- Line 50 of `src/dataset.py` applied to one annotated instance
`(motif, s, e)`: the positive sample tuple
`(version, act, motif, round(w*22050/512), round(w*22050/512) + 646)`
with `w` the window start produced by the instance sampler. -/
def mkPosSample (version act motif : String) (s e T : ℚ) : PosSample :=
  { version := version, act := act, motif := motif
    startF := secToFrame (positiveStart s e 15 T)
    endF := secToFrame (positiveStart s e 15 T) + 646 }

/-- One parsed row of an annotation csv: `(motif, start_sec, end_sec)`. -/
structure AnnRow where
  motif : String
  start_sec : ℚ
  end_sec : ℚ

/-- Modelled from the spec: the negative sampler
(`generate_non_overlapping_intervals` / `sample_non_overlapping_interval`
in `data_utils`, not among the sources) only ever returns an interval
`[w, w+15]` lying inside a free region, i.e. inside `[0, T]` and
intersecting no occupied (annotated) interval (§4.1-4.2). -/
def noneSampleOK (insts : List AnnRow) (T w : ℚ) : Prop :=
  0 ≤ w ∧ w + 15 ≤ T ∧
  ∀ inst ∈ insts, w + 15 ≤ inst.start_sec ∨ inst.end_sec ≤ w

/-- Frame range start of a negative sample (line 68 of `src/dataset.py`). -/
def negStartF (w : ℚ) : ℤ := secToFrame w

/-- Frame range start of an annotated instance in the ground-truth tensor
(line 37 of `src/dataset.py`). -/
def instStartF (inst : AnnRow) : ℤ := secToFrame inst.start_sec

/-- Frame range end of an annotated instance in the ground-truth tensor
(line 38 of `src/dataset.py`). -/
def instEndF (inst : AnnRow) : ℤ := secToFrame inst.end_sec

/-- An annotated instance with the motif label already sent through
`motif2idx`.  `motif2idx` lives in `data_utils`, which is not among the
sources; per §3 of the spec it is a fixed injective map from the 20 motif
names into `0..19`, with `"none"` reserved at index 20.  Carrying the
mapped index keeps the ground-truth construction independent of the
concrete name table. -/
structure GtInst where
  motifIdx : ℕ
  start_sec : ℚ
  end_sec : ℚ

/-- Tensor slice assignment `m[s:e, col] = 1` with Python clamping
semantics on the row range (the tensor has `n` rows). -/
def setSlice (n : ℕ) (m : ℕ → ℕ → ℚ) (s e : ℤ) (col : ℕ) : ℕ → ℕ → ℚ :=
  fun f c => if c = col ∧ pyIdx n s ≤ f ∧ f < pyIdx n e then 1 else m f c

/-- Lines 33-40 of `src/dataset.py`: starting from
`torch.zeros((num_frames, 21))`, set
`gt[round(start*22050/512) : round(end*22050/512), motif_idx] = 1` for
every annotated instance in file order. -/
def gtBase (n : ℕ) (insts : List GtInst) : ℕ → ℕ → ℚ :=
  insts.foldl
    (fun m i => setSlice n m (secToFrame i.start_sec) (secToFrame i.end_sec) i.motifIdx)
    (fun _ _ => 0)

/-- torch `row.max()` over the 20 motif entries `g 0 .. g 19` of one
frame row (`self.instances_gt[fn][f, :-1].max()`). -/
def vmax20 (g : ℕ → ℚ) : ℚ := ((List.range 20).map g).foldl max (g 0)

/-- Line 43 of `src/dataset.py`: the finished ground-truth tensor, with
`gt[:, -1] = 1 - gt[:, :-1].max(dim=1).values` applied on top of the
motif columns. -/
def instancesGT (n : ℕ) (insts : List GtInst) : ℕ → ℕ → ℚ :=
  fun f c =>
    if c = 20 then 1 - vmax20 (fun c2 => gtBase n insts f c2)
    else gtBase n insts f c

/-- A CQT array in the `(n_bins, n_frames)` orientation `librosa.cqt`
returns (`src/data/convert.py` works in this orientation; `dataset.py`
transposes it on load). -/
structure CqtMat where
  nBins : ℕ
  nFrames : ℕ
  entry : ℕ → ℕ → ℚ

/-- Line 16 of `src/data/convert.py`: `cqt_mag = np.abs(cqt)`. -/
def magM (S : CqtMat) : CqtMat :=
  { nBins := S.nBins, nFrames := S.nFrames, entry := fun i j => |S.entry i j| }

/-- `np.max` down axis 0 (over the bins of one frame column `j`); the
entries fed to it are magnitudes, hence nonnegative, so folding `max`
from `0` computes the column maximum. -/
def colMax (S : CqtMat) (j : ℕ) : ℚ :=
  ((List.range S.nBins).map (fun i => S.entry i j)).foldl max 0

/-- Line 17 of `src/data/convert.py`:
`librosa.util.normalize(cqt_mag, axis=0, norm=np.inf)` divides each
column (= one time frame, across bins) by its maximum absolute value;
columns whose maximum is below threshold are left untouched (the library
replaces the length by 1). -/
def maxNorm (S : CqtMat) : CqtMat :=
  { nBins := S.nBins, nFrames := S.nFrames
    entry := fun i j => if colMax S j = 0 then S.entry i j else S.entry i j / colMax S j }

/-- The matrix `src/data/convert.py` pickles for one recording:
magnitude of the CQT, then the axis-0 max normalization. -/
def convertOutput (S : CqtMat) : CqtMat := maxNorm (magM S)

/-- Maximum of the absolute values of one bin row of a `CqtMat` across
its time frames (what the spec calls per-bin peak normalization). -/
def rowMaxAbs (S : CqtMat) (i : ℕ) : ℚ :=
  ((List.range S.nFrames).map (fun j => |S.entry i j|)).foldl max 0

/-- Modelled from the spec: one run of the negative-sampling loop
(lines 57-65 of `src/dataset.py`) for a recording with occupied
(annotated) intervals `occ`, total duration `T` and window length `d`.
`NegRun occ T d l` holds of the list of sampled window starts, most
recent first: each sampled window `[w, w+d]` lies in a free region of
the occupied list current at that iteration, so it is inside `[0, T]`,
disjoint from every initially occupied interval, and disjoint from every
previously sampled window (which was appended to `occupied`). -/
inductive NegRun (occ : List (ℚ × ℚ)) (T d : ℚ) : List ℚ → Prop
  | nil : NegRun occ T d []
  | cons (w : ℚ) (prev : List ℚ) :
      NegRun occ T d prev →
      0 ≤ w →
      w + d ≤ T →
      (∀ iv ∈ occ, w + d ≤ iv.1 ∨ iv.2 ≤ w) →
      (∀ u ∈ prev, w + d ≤ u ∨ u + d ≤ w) →
      NegRun occ T d (w :: prev)

/-- Well-formedness of a stored positive sample: it was produced by
line 50 of `src/dataset.py` from a window start `w` that the instance
sampler kept inside the recording (spec §4.2), and the recording's
ground-truth tensor has as many rows as its CQT. -/
def WFpos (d : LeitmotifDataset) (p : PosSample) : Prop :=
  ∃ w : ℚ, 0 ≤ w ∧
    w + 15 ≤ (totalDurationSec (d.cqt (fnOf p.version p.act)).rows : ℚ) ∧
    p.startF = secToFrame w ∧ p.endF = p.startF + 646 ∧
    (d.instances_gt (fnOf p.version p.act)).rows = (d.cqt (fnOf p.version p.act)).rows

/-- Well-formedness of a stored negative sample: produced by line 68 of
`src/dataset.py` from a sampled window `[w, w+15]` inside the recording
(spec §4.1-4.2). -/
def WFneg (d : LeitmotifDataset) (q : NegSample) : Prop :=
  ∃ w : ℚ, 0 ≤ w ∧
    w + 15 ≤ (totalDurationSec (d.cqt (fnOf q.version q.act)).rows : ℚ) ∧
    q.startF = secToFrame w ∧ q.endF = q.startF + 646

/-- Concrete dataset used to exercise `getitem` on a positive and a
negative sample: one recording of 2585 frames (60 whole seconds). -/
def dsC3 : LeitmotifDataset :=
  { cqt := fun _ => zerosMat 2585 84
    instances_gt := fun _ => zerosMat 2585 21
    samples := [⟨"A", "1", "M", 0, 646⟩]
    none_samples := [] }

/-- Concrete dataset with one positive and one negative sample. -/
def dsC4 : LeitmotifDataset :=
  { cqt := fun _ => zerosMat 2585 84
    instances_gt := fun _ => zerosMat 2585 21
    samples := [⟨"A", "1", "M", 0, 646⟩]
    none_samples := [⟨"A", "1", 700, 1346⟩] }

/-- Concrete dataset built from the single annotated instance
`("MotifA", 10.5, 30.0)` in a 60-second recording. -/
def dsC5 : LeitmotifDataset :=
  { cqt := fun _ => zerosMat 2585 84
    instances_gt := fun _ => zerosMat 2585 21
    samples := [mkPosSample "P-C" "1" "MotifA" (21/2) 30 60]
    none_samples := [] }

/-- Concrete 2 x 2 CQT magnitude array (bins x frames). -/
def cqtC6 : CqtMat :=
  { nBins := 2, nFrames := 2
    entry := fun i j => if i = 0 then (if j = 0 then 1 else 0)
                        else (if j = 0 then 2 else 4) }

/-- Concrete dataset with one positive sample and no negative samples. -/
def dsC9 : LeitmotifDataset :=
  { cqt := fun _ => zerosMat 2585 84
    instances_gt := fun _ => zerosMat 2585 21
    samples := [⟨"A", "1", "M", 0, 646⟩]
    none_samples := [] }

/-- Concrete dataset with one positive and one negative sample, used to
probe the accessor with a Python-negative index. -/
def dsC10 : LeitmotifDataset :=
  { cqt := fun _ => zerosMat 2585 84
    instances_gt := fun _ => zerosMat 2585 21
    samples := [⟨"A", "1", "M", 0, 646⟩]
    none_samples := [⟨"A", "1", 700, 1346⟩] }

/-- Bool-valued filter of `subset_indices` as the spec states it: keep a
sample when its version is in `versions` (when given) and its act is in
`acts` (when given). -/
def keepB (versions acts : Option (List String)) (v a : String) : Bool :=
  (match versions with
   | none => true
   | some vs => vs.contains v) &&
  (match acts with
   | none => true
   | some as' => as'.contains a)

theorem le_pyRound (q : ℚ) : q - 1/2 ≤ (pyRound q : ℚ) := by
  unfold pyRound
  have hf1 := Int.floor_le q
  have hf2 := Int.lt_floor_add_one q
  split_ifs with h1 h2 h3 <;> push_cast <;> linarith

theorem pyRound_le (q : ℚ) : (pyRound q : ℚ) ≤ q + 1/2 := by
  unfold pyRound
  have hf1 := Int.floor_le q
  have hf2 := Int.lt_floor_add_one q
  split_ifs with h1 h2 h3 <;> push_cast <;> linarith

theorem pyRound_nonneg (q : ℚ) (h : 0 ≤ q) : 0 ≤ pyRound q := by
  have hfl : 0 ≤ ⌊q⌋ := Int.floor_nonneg.mpr h
  unfold pyRound
  split_ifs <;> omega

theorem pyRound_eval_lo (q : ℚ) (n : ℤ) (h1 : (n : ℚ) ≤ q) (h2 : q < n + 1/2) :
    pyRound q = n := by
  have hfl : ⌊q⌋ = n := Int.floor_eq_iff.mpr ⟨h1, by push_cast; linarith⟩
  unfold pyRound
  rw [hfl, if_pos (by push_cast; linarith)]

theorem pyRound_eval_hi (q : ℚ) (n : ℤ) (h1 : (n : ℚ) + 1/2 < q) (h2 : q < n + 1) :
    pyRound q = n + 1 := by
  have hfl : ⌊q⌋ = n := Int.floor_eq_iff.mpr ⟨by linarith, by push_cast; linarith⟩
  unfold pyRound
  rw [hfl, if_neg (by push_cast; linarith), if_pos (by push_cast; linarith)]

theorem pyIdx_of_nonneg_le (n : ℕ) (i : ℤ) (h0 : 0 ≤ i) (h1 : i ≤ n) :
    pyIdx n i = i.toNat := by
  unfold pyIdx
  rw [if_pos h0]
  omega

theorem pyGet_mem {α : Type} (l : List α) (i : ℤ) (a : α)
    (h : pyGet l i = some a) : a ∈ l := by
  unfold pyGet at h
  split_ifs at h <;> exact List.get?_mem h

theorem secToFrame_lb (w : ℚ) (h0 : 0 ≤ w) : 0 ≤ secToFrame w :=
  pyRound_nonneg _ (by positivity)

theorem secToFrame_ub (w : ℚ) (n : ℕ)
    (h1 : w + 15 ≤ (totalDurationSec n : ℚ)) :
    secToFrame w + 646 ≤ (n : ℤ) := by
  have hT : (totalDurationSec n : ℚ) * 22050 ≤ (n : ℚ) * 512 := by
    have := Nat.div_mul_le_self (n * 512) 22050
    calc (totalDurationSec n : ℚ) * 22050
        = ((n * 512 / 22050 * 22050 : ℕ) : ℚ) := by push_cast [totalDurationSec]; ring
      _ ≤ ((n * 512 : ℕ) : ℚ) := by exact_mod_cast Nat.cast_le.mpr this
      _ = (n : ℚ) * 512 := by push_cast; ring
  have hle : (secToFrame w : ℚ) ≤ w * 22050 / 512 + 1/2 := pyRound_le _
  have hcast : ((secToFrame w + 646 : ℤ) : ℚ) < (n : ℚ) + 1 := by
    push_cast
    nlinarith
  have : (secToFrame w + 646 : ℤ) < (n : ℤ) + 1 := by exact_mod_cast hcast
  omega

theorem pySlice_rows_646 (M : Mat) (s : ℤ) (h0 : 0 ≤ s)
    (h1 : s + 646 ≤ (M.rows : ℤ)) :
    (pySlice M s (s + 646)).rows = 646 := by
  unfold pySlice
  simp only
  rw [pyIdx_of_nonneg_le _ _ (by omega) h1, pyIdx_of_nonneg_le _ _ h0 (by omega)]
  omega

theorem mem_enumComp {α β : Type} (f : ℕ → α → β) (P : α → Bool) :
    ∀ (l : List α) (i0 : ℕ) (b : β),
      b ∈ enumComp f P i0 l ↔
        ∃ k a, l.get? k = some a ∧ P a = true ∧ b = f (i0 + k) a := by
  intro l
  induction l with
  | nil => intro i0 b; simp [enumComp]
  | cons x xs ih =>
    intro i0 b
    by_cases hP : P x
    · rw [enumComp, if_pos hP]
      simp only [List.mem_cons, ih (i0 + 1)]
      constructor
      · rintro (rfl | ⟨k, a, hget, hPa, rfl⟩)
        · exact ⟨0, x, rfl, hP, by simp⟩
        · exact ⟨k + 1, a, hget, hPa, by rw [show i0 + (k + 1) = i0 + 1 + k by omega]⟩
      · rintro ⟨k, a, hget, hPa, rfl⟩
        cases k with
        | zero =>
          left
          simp only [List.get?_cons_zero, Option.some.injEq] at hget
          rw [hget, Nat.add_zero]
        | succ k =>
          right
          exact ⟨k, a, by simpa using hget, hPa, by rw [show i0 + (k + 1) = i0 + 1 + k by omega]⟩
    · rw [enumComp, if_neg hP]
      rw [ih (i0 + 1)]
      constructor
      · rintro ⟨k, a, hget, hPa, rfl⟩
        exact ⟨k + 1, a, by simpa using hget, hPa, by rw [show i0 + (k + 1) = i0 + 1 + k by omega]⟩
      · rintro ⟨k, a, hget, hPa, rfl⟩
        cases k with
        | zero =>
          simp only [List.get?_cons_zero, Option.some.injEq] at hget
          rw [← hget] at hPa
          exact absurd hPa hP
        | succ k =>
          exact ⟨k, a, by simpa using hget, hPa, by rw [show i0 + (k + 1) = i0 + 1 + k by omega]⟩

theorem mem_enumComp_idx_ge {α : Type} (P : α → Bool) (l : List α) (i0 j : ℕ)
    (h : j ∈ enumComp (fun i _ => i) P i0 l) : i0 ≤ j := by
  obtain ⟨k, a, -, -, rfl⟩ := (mem_enumComp _ P l i0 j).mp h
  omega

theorem mem_enumComp_idx_lt {α : Type} (P : α → Bool) (l : List α) (i0 j : ℕ)
    (h : j ∈ enumComp (fun i _ => i) P i0 l) : j < i0 + l.length := by
  obtain ⟨k, a, hget, -, rfl⟩ := (mem_enumComp _ P l i0 j).mp h
  obtain ⟨hlt, -⟩ := List.get?_eq_some.mp hget
  omega

theorem enumComp_idx_pairwise {α : Type} (P : α → Bool) :
    ∀ (l : List α) (i0 : ℕ),
      (enumComp (fun i _ => i) P i0 l).Pairwise (· < ·) := by
  intro l
  induction l with
  | nil => intro i0; simp [enumComp]
  | cons x xs ih =>
    intro i0
    by_cases hP : P x
    · rw [enumComp, if_pos hP]
      exact List.Pairwise.cons
        (fun j hj => lt_of_lt_of_le (Nat.lt_succ_self i0)
          (mem_enumComp_idx_ge P xs (i0 + 1) j hj)) (ih (i0 + 1))
    · rw [enumComp, if_neg hP]
      exact ih (i0 + 1)

theorem exists_get?_iff {α : Type} (l : List α) (n : ℕ) :
    (∃ a, l.get? n = some a) ↔ n < l.length := by
  constructor
  · rintro ⟨a, ha⟩
    by_contra hn
    rw [List.get?_eq_none.mpr (by omega)] at ha
    exact Option.noConfusion ha
  · intro h
    exact ⟨l.get ⟨n, h⟩, List.get?_eq_get h⟩

theorem le_foldl_max (l : List ℚ) (a : ℚ) : a ≤ l.foldl max a := by
  induction l generalizing a with
  | nil => exact le_refl a
  | cons x xs ih => exact le_trans (le_max_left a x) (ih (max a x))

theorem mem_le_foldl_max (l : List ℚ) (a x : ℚ) (h : x ∈ l) : x ≤ l.foldl max a := by
  induction l generalizing a with
  | nil => cases h
  | cons y ys ih =>
    rcases List.mem_cons.mp h with rfl | hmem
    · exact le_trans (le_max_right a x) (le_foldl_max ys (max a x))
    · exact ih hmem (a := max a y)

theorem foldl_max_le (l : List ℚ) (a c : ℚ) (ha : a ≤ c) (hl : ∀ x ∈ l, x ≤ c) :
    l.foldl max a ≤ c := by
  induction l generalizing a with
  | nil => exact ha
  | cons x xs ih =>
    exact ih (max a x) (max_le ha (hl x (List.mem_cons_self x xs)))
      (fun y hy => hl y (List.mem_cons_of_mem x hy))

theorem foldl_max_eq_zero_iff (l : List ℚ) (a : ℚ) (ha : 0 ≤ a)
    (hl : ∀ x ∈ l, 0 ≤ x) :
    (l.foldl max a = 0 ↔ a = 0 ∧ ∀ x ∈ l, x = 0) := by
  constructor
  · intro h
    refine ⟨le_antisymm (h ▸ le_foldl_max l a) ha, fun x hx => ?_⟩
    exact le_antisymm (h ▸ mem_le_foldl_max l a x hx) (hl x hx)
  · rintro ⟨rfl, h⟩
    exact le_antisymm (foldl_max_le l 0 0 le_rfl (fun x hx => le_of_eq (h x hx)))
      (le_foldl_max l 0)

theorem foldl_max_div (l : List ℚ) (M : ℚ) (hM : 0 < M) :
    ∀ a : ℚ, (l.map (· / M)).foldl max (a / M) = (l.foldl max a) / M := by
  induction l with
  | nil => intro a; rfl
  | cons x xs ih =>
    intro a
    show (xs.map (· / M)).foldl max (max (a / M) (x / M)) = (xs.foldl max (max a x)) / M
    rw [max_div_div_right (le_of_lt hM), ih (max a x)]

theorem querySec_eq_floor (x : ℤ) :
    querySec x = ⌊((x * 512 : ℤ) : ℚ) / ((22050 : ℕ) : ℚ)⌋ := by
  rw [querySec, Int.fdiv_eq_ediv _ (by norm_num), Rat.floor_intCast_div_natCast]
  norm_num

theorem floor_div_sep (a b d : ℚ) (hd : 0 < d) (h : a + d ≤ b) :
    ⌊a / d⌋ < ⌊b / d⌋ := by
  have h1 : a / d + 1 ≤ b / d := by
    rw [show a / d + 1 = (a + d) / d by field_simp]
    exact (div_le_div_iff_of_pos_right hd).mpr h
  have h2 : ⌊a / d + 1⌋ ≤ ⌊b / d⌋ := Int.floor_mono h1
  rw [Int.floor_add_one] at h2
  omega

theorem negRun_bounds (occ : List (ℚ × ℚ)) (T d : ℚ) (l : List ℚ)
    (h : NegRun occ T d l) : ∀ w ∈ l, 0 ≤ w ∧ w + d ≤ T := by
  induction h with
  | nil => intro w hw; cases hw
  | cons w prev _ h0 h1 _ _ ih =>
    intro u hu
    rcases List.mem_cons.mp hu with rfl | hmem
    · exact ⟨h0, h1⟩
    · exact ih u hmem

theorem negRun_pairwise (occ : List (ℚ × ℚ)) (T d : ℚ) (l : List ℚ)
    (h : NegRun occ T d l) : l.Pairwise (fun a b => a + d ≤ b ∨ b + d ≤ a) := by
  induction h with
  | nil => exact List.Pairwise.nil
  | cons w prev _ _ _ _ hsep ih => exact List.Pairwise.cons hsep ih

theorem gtBase_nonneg_aux (n : ℕ) (insts : List GtInst) :
    ∀ (m : ℕ → ℕ → ℚ), (∀ f c, 0 ≤ m f c) →
      ∀ f c, 0 ≤ (insts.foldl
        (fun m i => setSlice n m (secToFrame i.start_sec) (secToFrame i.end_sec) i.motifIdx)
        m) f c := by
  induction insts with
  | nil => intro m hm f c; exact hm f c
  | cons i is ih =>
    intro m hm f c
    refine ih _ (fun f c => ?_) f c
    simp only [setSlice]
    split_ifs
    · norm_num
    · exact hm f c

theorem gtBase_nonneg (n : ℕ) (insts : List GtInst) (f c : ℕ) :
    0 ≤ gtBase n insts f c :=
  gtBase_nonneg_aux n insts _ (fun _ _ => le_refl 0) f c

theorem vmax20_eq_zero_iff (g : ℕ → ℚ) (hg : ∀ c, c < 20 → 0 ≤ g c) :
    vmax20 g = 0 ↔ ∀ c < 20, g c = 0 := by
  unfold vmax20
  rw [foldl_max_eq_zero_iff _ _ (hg 0 (by norm_num))
    (fun x hx => by
      obtain ⟨c, hc, rfl⟩ := List.mem_map.mp hx
      exact hg c (List.mem_range.mp hc))]
  constructor
  · rintro ⟨h0, h⟩ c hc
    exact h (g c) (List.mem_map.mpr ⟨c, List.mem_range.mpr hc, rfl⟩)
  · intro h
    exact ⟨h 0 (by norm_num), fun x hx => by
      obtain ⟨c, hc, rfl⟩ := List.mem_map.mp hx
      exact h c (List.mem_range.mp hc)⟩

/-- C9: for every global index at or beyond
`len(samples) + len(none_samples)`, `__getitem__` raises an
index-out-of-bounds error (embedded as `none`) instead of returning a
sample. -/
theorem c9_theorem (d : LeitmotifDataset) (idx : ℤ)
    (h : (d.samples.length : ℤ) + (d.none_samples.length : ℤ) ≤ idx) :
    getitem d idx = none := by
  unfold getitem
  rw [if_neg (by omega)]
  unfold pyGet
  rw [if_pos (by omega)]
  rw [List.get?_eq_none.mpr (by omega)]
  rfl

theorem c9_witness : getitem dsC9 1 = none :=
  c9_theorem dsC9 1 (by simp [dsC9])

/-- C10: on a dataset with at least one positive sample, a Python
negative index `-len(samples) ≤ idx ≤ -1` does not fail: the positive
branch of `__getitem__` is taken and Python negative indexing returns
the positive sample at position `len(samples) + idx`, never a negative
sample. -/
theorem c10_theorem (d : LeitmotifDataset) (idx : ℤ)
    (h1 : 1 ≤ d.samples.length)
    (h2 : -(d.samples.length : ℤ) ≤ idx) (h3 : idx ≤ -1) :
    ∃ p, d.samples.get? ((d.samples.length : ℤ) + idx).toNat = some p ∧
      getitem d idx = some
        (pySlice (d.cqt (fnOf p.version p.act)) p.startF p.endF,
         pySlice (d.instances_gt (fnOf p.version p.act)) p.startF p.endF) := by
  have hlt : ((d.samples.length : ℤ) + idx).toNat < d.samples.length := by omega
  refine ⟨d.samples.get ⟨_, hlt⟩, List.get?_eq_get hlt, ?_⟩
  unfold getitem
  rw [if_pos (by omega)]
  unfold pyGet
  rw [if_neg (by omega), if_pos (by omega), List.get?_eq_get hlt]
  rfl

theorem c10_witness :
    ∃ p, dsC10.samples.get? ((dsC10.samples.length : ℤ) + (-1)).toNat = some p ∧
      getitem dsC10 (-1) = some
        (pySlice (dsC10.cqt (fnOf p.version p.act)) p.startF p.endF,
         pySlice (dsC10.instances_gt (fnOf p.version p.act)) p.startF p.endF) :=
  c10_theorem dsC10 (-1) (by simp [dsC10]) (by simp [dsC10]) (by norm_num)

/-- C4: a global index below `len(samples)` returns the positive
sample's CQT slice paired with the ground-truth tensor slice over the
same frame range; a global index in
`[len(samples), len(samples)+len(none_samples))` returns the negative
sample's CQT slice paired with an all-zero `(end-start, 21)` label
window (so the "none" column is all zeros as well). -/
theorem c4_theorem (d : LeitmotifDataset) (idx : ℕ) :
    (∀ p, d.samples.get? idx = some p →
      getitem d idx = some
        (pySlice (d.cqt (fnOf p.version p.act)) p.startF p.endF,
         pySlice (d.instances_gt (fnOf p.version p.act)) p.startF p.endF)) ∧
    (∀ q, d.samples.length ≤ idx →
      d.none_samples.get? (idx - d.samples.length) = some q →
      getitem d idx = some
        (pySlice (d.cqt (fnOf q.version q.act)) q.startF q.endF,
         zerosMat (q.endF - q.startF).toNat 21)) := by
  constructor
  · intro p hp
    obtain ⟨hlt, -⟩ := List.get?_eq_some.mp hp
    unfold getitem
    rw [if_pos (by exact_mod_cast hlt)]
    unfold pyGet
    rw [if_pos (by omega), Int.toNat_natCast, hp]
    rfl
  · intro q hle hq
    unfold getitem
    rw [if_neg (by omega)]
    unfold pyGet
    rw [if_pos (by omega)]
    rw [show ((idx : ℤ) - d.samples.length).toNat = idx - d.samples.length by omega]
    rw [hq]
    rfl

theorem c4_witness :
    getitem dsC4 0 = some
      (pySlice (dsC4.cqt (fnOf "A" "1")) 0 646,
       pySlice (dsC4.instances_gt (fnOf "A" "1")) 0 646) ∧
    getitem dsC4 1 = some
      (pySlice (dsC4.cqt (fnOf "A" "1")) 700 1346,
       zerosMat ((1346 - 700 : ℤ)).toNat 21) :=
  ⟨(c4_theorem dsC4 0).1 ⟨"A", "1", "M", 0, 646⟩ rfl,
   (c4_theorem dsC4 1).2 ⟨"A", "1", 700, 1346⟩ (by simp [dsC4]) rfl⟩

/-- C2: in every finished ground-truth tensor, the "none" column equals
`1 - max` over the 20 motif columns, and it equals `1` at a frame
exactly when all 20 motif columns are `0` there. -/
theorem c2_theorem (n : ℕ) (insts : List GtInst) (f : ℕ) :
    instancesGT n insts f 20 = 1 - vmax20 (fun c => gtBase n insts f c) ∧
    (instancesGT n insts f 20 = 1 ↔ ∀ c < 20, instancesGT n insts f c = 0) := by
  have h20 : instancesGT n insts f 20 = 1 - vmax20 (fun c => gtBase n insts f c) := by
    simp [instancesGT]
  have hmot : ∀ c, c < 20 → instancesGT n insts f c = gtBase n insts f c := by
    intro c hc
    unfold instancesGT
    rw [if_neg (by omega)]
  refine ⟨h20, ?_⟩
  rw [h20, sub_eq_self,
    vmax20_eq_zero_iff _ (fun c _ => gtBase_nonneg n insts f c)]
  constructor
  · intro h c hc
    rw [hmot c hc]
    exact h c hc
  · intro h c hc
    rw [← hmot c hc]
    exact h c hc

/-- C3: whenever `__getitem__` returns a pair, both components have
exactly 646 frame rows — uniformly for positive and negative samples,
including windows reaching the end of the recording — provided every
stored sample was produced by the construction (window start kept inside
`[0, total_duration - 15]` by the samplers, frame range
`[round(w*22050/512), round(w*22050/512) + 646)`). -/
theorem c3_theorem (d : LeitmotifDataset) (idx : ℤ) (pair : Mat × Mat)
    (hpos : ∀ p ∈ d.samples, WFpos d p)
    (hneg : ∀ q ∈ d.none_samples, WFneg d q)
    (hget : getitem d idx = some pair) :
    pair.1.rows = 646 ∧ pair.2.rows = 646 := by
  unfold getitem at hget
  by_cases hc : idx < (d.samples.length : ℤ)
  · rw [if_pos hc] at hget
    obtain ⟨p, hp, heq⟩ := Option.map_eq_some'.mp hget
    obtain ⟨w, hw0, hwT, hstart, hend, hgr⟩ := hpos p (pyGet_mem _ _ _ hp)
    have hs0 : 0 ≤ p.startF := hstart ▸ secToFrame_lb w hw0
    have hsn : p.startF + 646 ≤ ((d.cqt (fnOf p.version p.act)).rows : ℤ) := by
      rw [hstart]
      exact secToFrame_ub w _ hwT
    rw [← heq]
    constructor
    · show (pySlice (d.cqt (fnOf p.version p.act)) p.startF p.endF).rows = 646
      rw [hend]
      exact pySlice_rows_646 _ _ hs0 hsn
    · show (pySlice (d.instances_gt (fnOf p.version p.act)) p.startF p.endF).rows = 646
      rw [hend]
      exact pySlice_rows_646 _ _ hs0 (by rw [hgr]; exact hsn)
  · rw [if_neg hc] at hget
    obtain ⟨q, hq, heq⟩ := Option.map_eq_some'.mp hget
    obtain ⟨w, hw0, hwT, hstart, hend⟩ := hneg q (pyGet_mem _ _ _ hq)
    have hs0 : 0 ≤ q.startF := hstart ▸ secToFrame_lb w hw0
    have hsn : q.startF + 646 ≤ ((d.cqt (fnOf q.version q.act)).rows : ℤ) := by
      rw [hstart]
      exact secToFrame_ub w _ hwT
    rw [← heq]
    constructor
    · show (pySlice (d.cqt (fnOf q.version q.act)) q.startF q.endF).rows = 646
      rw [hend]
      exact pySlice_rows_646 _ _ hs0 hsn
    · show (q.endF - q.startF).toNat = 646
      omega

theorem c3_witness :
    ((pySlice (dsC3.cqt (fnOf "A" "1")) 0 646,
      pySlice (dsC3.instances_gt (fnOf "A" "1")) 0 646) : Mat × Mat).1.rows = 646 ∧
    ((pySlice (dsC3.cqt (fnOf "A" "1")) 0 646,
      pySlice (dsC3.instances_gt (fnOf "A" "1")) 0 646) : Mat × Mat).2.rows = 646 := by
  have h0 : secToFrame 0 = 0 := by
    unfold secToFrame
    rw [show (0 : ℚ) * 22050 / 512 = 0 by norm_num]
    exact pyRound_eval_lo 0 0 le_rfl (by norm_num)
  refine c3_theorem dsC3 0 _ ?_ ?_ rfl
  · intro p hp
    have hp' : p = ⟨"A", "1", "M", 0, 646⟩ := by simpa [dsC3] using hp
    subst hp'
    refine ⟨0, le_rfl, ?_, h0.symm, rfl, rfl⟩
    have h60 : totalDurationSec 2585 = 60 := by decide
    show (0 : ℚ) + 15 ≤ ((totalDurationSec 2585 : ℕ) : ℚ)
    rw [h60]
    norm_num
  · intro q hq
    exact absurd hq (List.not_mem_nil q)

/-- C7: any run of the negative-sampling loop records at most
`⌊total_duration / window_duration⌋` negative samples: every recorded
window occupies `d` seconds of previously free space inside `[0, T]` and
is disjoint from everything already occupied, so the loop terminates
after finitely many recorded samples. -/
theorem c7_theorem (occ : List (ℚ × ℚ)) (T d : ℚ) (l : List ℚ)
    (hd : 0 < d) (hT : 0 ≤ T) (h : NegRun occ T d l) :
    (l.length : ℤ) ≤ ⌊T / d⌋ := by
  have hb := negRun_bounds occ T d l h
  have hp := negRun_pairwise occ T d l h
  have hnodup : (l.map (fun w => ⌊w / d⌋)).Nodup := by
    refine List.Pairwise.map _ ?_ hp
    intro a b hab
    rcases hab with hab | hab
    · exact ne_of_lt (floor_div_sep a b d hd hab)
    · exact (ne_of_lt (floor_div_sep b a d hd hab)).symm
  have hmem : ∀ x ∈ l.map (fun w => ⌊w / d⌋), x ∈ Finset.Icc (0 : ℤ) (⌊T / d⌋ - 1) := by
    intro x hx
    obtain ⟨w, hw, rfl⟩ := List.mem_map.mp hx
    obtain ⟨hw0, hwT⟩ := hb w hw
    refine Finset.mem_Icc.mpr
      ⟨Int.floor_nonneg.mpr (div_nonneg hw0 (le_of_lt hd)), ?_⟩
    have h1 : w / d ≤ T / d - 1 := by
      rw [show T / d - 1 = (T - d) / d by field_simp]
      exact (div_le_div_iff_of_pos_right hd).mpr (by linarith)
    have h2 : ⌊w / d⌋ ≤ ⌊T / d - 1⌋ := Int.floor_mono h1
    rw [show (1 : ℚ) = ((1 : ℤ) : ℚ) by norm_num, Int.floor_sub_int] at h2
    omega
  have hsub : (l.map (fun w => ⌊w / d⌋)).toFinset ⊆ Finset.Icc (0 : ℤ) (⌊T / d⌋ - 1) :=
    fun x hx => hmem x (List.mem_toFinset.mp hx)
  have hcard := Finset.card_le_card hsub
  rw [List.toFinset_card_of_nodup hnodup, List.length_map, Int.card_Icc] at hcard
  have hfl : 0 ≤ ⌊T / d⌋ := Int.floor_nonneg.mpr (div_nonneg hT (le_of_lt hd))
  omega

theorem c7_witness : (([40, 25] : List ℚ).length : ℤ) ≤ ⌊(60 : ℚ) / 15⌋ := by
  refine c7_theorem [((10 : ℚ), (20 : ℚ))] 60 15 [40, 25] (by norm_num) (by norm_num) ?_
  refine NegRun.cons 40 [25] ?_ (by norm_num) (by norm_num) ?_ ?_
  · refine NegRun.cons 25 [] NegRun.nil (by norm_num) (by norm_num) ?_ ?_
    · intro iv hiv
      rw [List.mem_singleton] at hiv
      subst hiv
      right
      norm_num
    · intro u hu
      cases hu
  · intro iv hiv
    rw [List.mem_singleton] at hiv
    subst hiv
    right
    norm_num
  · intro u hu
    rw [List.mem_singleton] at hu
    subst hu
    right
    norm_num

/-- C1 fails on the code: a sampled negative window `[w, w+15]` that
abuts an annotated instance in seconds can still share frame 646 with
the instance's frame range, because the negative frame range is
`round(w*22050/512) + 646` frames long (646 frames exceed 15 seconds of
frames, 645.996) while the instance range is rounded per boundary.
Concretely with `w = 257/22050` and an instance starting exactly at
`w + 15`. -/
theorem c1_counterexample :
    noneSampleOK [⟨"M", 331007/22050, 331007/22050 + 1⟩] 60 (257/22050) ∧
    negStartF (257/22050) ≤ 646 ∧ (646 : ℤ) < negStartF (257/22050) + 646 ∧
    instStartF ⟨"M", 331007/22050, 331007/22050 + 1⟩ ≤ 646 ∧
    (646 : ℤ) < instEndF ⟨"M", 331007/22050, 331007/22050 + 1⟩ := by
  have hneg : negStartF (257/22050) = 1 := by
    simp only [negStartF, secToFrame]
    rw [show (257/22050 : ℚ) * 22050 / 512 = 257/512 by norm_num]
    exact pyRound_eval_hi (257/512) 0 (by norm_num) (by norm_num)
  have his : instStartF ⟨"M", 331007/22050, 331007/22050 + 1⟩ = 646 := by
    simp only [instStartF, secToFrame]
    rw [show (331007/22050 : ℚ) * 22050 / 512 = 331007/512 by norm_num]
    exact pyRound_eval_lo (331007/512) 646 (by norm_num) (by norm_num)
  have hie : instEndF ⟨"M", 331007/22050, 331007/22050 + 1⟩ = 690 := by
    simp only [instEndF, secToFrame]
    rw [show ((331007/22050 : ℚ) + 1) * 22050 / 512 = 353057/512 by norm_num]
    exact pyRound_eval_hi (353057/512) 689 (by norm_num) (by norm_num)
  refine ⟨⟨by norm_num, by norm_num, ?_⟩,
    by rw [hneg]; norm_num, by rw [hneg]; norm_num,
    by rw [his], by rw [hie]; norm_num⟩
  intro inst hmem
  rw [List.mem_singleton] at hmem
  subst hmem
  left
  show (257/22050 : ℚ) + 15 ≤ 331007/22050
  norm_num

/-- C1 amended: a negative sample's frame range
`[round(w*22050/512), round(w*22050/512)+646)` and an annotated
instance's frame range `[round(s*22050/512), round(e*22050/512))` in the
same recording overlap in at most one frame (their second-ranges are
disjoint, but the per-boundary rounding plus the 646-frame window length
admit a single shared frame). -/
theorem c1_theorem (insts : List AnnRow) (T w : ℚ) (inst : AnnRow)
    (h : noneSampleOK insts T w) (hmem : inst ∈ insts) :
    min (negStartF w + 646) (instEndF inst) -
      max (negStartF w) (instStartF inst) ≤ 1 := by
  obtain ⟨hw0, hwT, hdisj⟩ := h
  simp only [negStartF, instStartF, instEndF, secToFrame]
  have hub : (pyRound (w * 22050 / 512) : ℚ) ≤ w * 22050 / 512 + 1/2 :=
    pyRound_le _
  have hlb : w * 22050 / 512 - 1/2 ≤ (pyRound (w * 22050 / 512) : ℚ) :=
    le_pyRound _
  rcases hdisj inst hmem with hcase | hcase
  · have hilb : inst.start_sec * 22050 / 512 - 1/2 ≤
        (pyRound (inst.start_sec * 22050 / 512) : ℚ) := le_pyRound _
    have hkey : pyRound (w * 22050 / 512) + 646 -
        pyRound (inst.start_sec * 22050 / 512) ≤ 1 := by
      have hq : ((pyRound (w * 22050 / 512) + 646 -
          pyRound (inst.start_sec * 22050 / 512) : ℤ) : ℚ) < 2 := by
        push_cast
        linarith
      have : pyRound (w * 22050 / 512) + 646 -
          pyRound (inst.start_sec * 22050 / 512) < 2 := by exact_mod_cast hq
      omega
    calc min (pyRound (w * 22050 / 512) + 646) (pyRound (inst.end_sec * 22050 / 512)) -
          max (pyRound (w * 22050 / 512)) (pyRound (inst.start_sec * 22050 / 512))
        ≤ (pyRound (w * 22050 / 512) + 646) - pyRound (inst.start_sec * 22050 / 512) :=
          sub_le_sub (min_le_left _ _) (le_max_right _ _)
      _ ≤ 1 := hkey
  · have hiub : (pyRound (inst.end_sec * 22050 / 512) : ℚ) ≤
        inst.end_sec * 22050 / 512 + 1/2 := pyRound_le _
    have hkey : pyRound (inst.end_sec * 22050 / 512) -
        pyRound (w * 22050 / 512) ≤ 1 := by
      have hq : ((pyRound (inst.end_sec * 22050 / 512) -
          pyRound (w * 22050 / 512) : ℤ) : ℚ) < 2 := by
        push_cast
        linarith
      have : pyRound (inst.end_sec * 22050 / 512) -
          pyRound (w * 22050 / 512) < 2 := by exact_mod_cast hq
      omega
    calc min (pyRound (w * 22050 / 512) + 646) (pyRound (inst.end_sec * 22050 / 512)) -
          max (pyRound (w * 22050 / 512)) (pyRound (inst.start_sec * 22050 / 512))
        ≤ pyRound (inst.end_sec * 22050 / 512) - pyRound (w * 22050 / 512) :=
          sub_le_sub (min_le_right _ _) (le_max_left _ _)
      _ ≤ 1 := hkey

theorem c1_witness :
    min (negStartF (257/22050) + 646) (instEndF ⟨"M", 331007/22050, 331007/22050 + 1⟩) -
      max (negStartF (257/22050)) (instStartF ⟨"M", 331007/22050, 331007/22050 + 1⟩) ≤ 1 := by
  refine c1_theorem [⟨"M", 331007/22050, 331007/22050 + 1⟩] 60 (257/22050) _
    ⟨by norm_num, by norm_num, ?_⟩ (List.mem_singleton.mpr rfl)
  intro inst hmem
  rw [List.mem_singleton] at hmem
  subst hmem
  left
  show (257/22050 : ℚ) + 15 ≤ 331007/22050
  norm_num

/-- C5 fails on the code: for the positive sample built from the
annotated instance `("MotifA", 10.5, 30.0)` in a 60-second recording,
`query_motif` returns `start_sec = 10` — off by `0.5` seconds from the
instance start, far more than one frame (`512/22050 ≈ 0.0232` s) —
because line 92 converts frames to seconds with integer floor division
`* 512 // 22050`. -/
theorem c5_counterexample :
    query_motif dsC5 "MotifA" = some [(0, "P-C", "1", 10, 25)] ∧
    ¬ (|(10 : ℚ) - 21/2| ≤ 512/22050) := by
  constructor
  · have hw : positiveStart (21/2) 30 15 60 = 21/2 := by
      unfold positiveStart
      rw [if_pos (by norm_num), min_eq_left (by norm_num)]
    have hf : secToFrame (21/2) = 452 := by
      unfold secToFrame
      rw [show (21/2 : ℚ) * 22050 / 512 = 231525/512 by norm_num]
      exact pyRound_eval_lo (231525/512) 452 (by norm_num) (by norm_num)
    have hq1 : querySec 452 = 10 := by decide
    have hq2 : querySec 1098 = 25 := by decide
    simp only [query_motif, dsC5, mkPosSample, hw, hf, enumComp]
    norm_num [hq1, hq2]
  · rw [show (10 : ℚ) - 21/2 = -(1/2) by norm_num, abs_neg,
      abs_of_nonneg (by norm_num : (0 : ℚ) ≤ 1/2)]
    norm_num

/-- C5 amended: for a positive sample built from an annotated instance
at least as long as the window (so the window starts at the instance
start `s`), the `start_sec` that `query_motif` reports is the
whole-second floor of the frame-to-second conversion: it satisfies
`s - 1 - 256/22050 < start_sec ≤ s + 256/22050`, i.e. it can
underestimate `s` by up to one second plus half a frame (not by at most
one frame). -/
theorem c5_theorem (s e T : ℚ) (v a m : String) (h15 : 15 ≤ e - s) :
    (querySec (mkPosSample v a m s e T).startF : ℚ) ≤ s + 256/22050 ∧
    s - 1 - 256/22050 < (querySec (mkPosSample v a m s e T).startF : ℚ) := by
  have hw : positiveStart s e 15 T = s := by
    unfold positiveStart
    rw [if_pos h15, min_eq_left (by linarith)]
  have hstart : (mkPosSample v a m s e T).startF = secToFrame s := by
    simp [mkPosSample, hw]
  rw [hstart]
  have hxu : (secToFrame s : ℚ) ≤ s * 22050 / 512 + 1/2 := pyRound_le _
  have hxl : s * 22050 / 512 - 1/2 ≤ (secToFrame s : ℚ) := le_pyRound _
  have hfloor := querySec_eq_floor (secToFrame s)
  have hA : (querySec (secToFrame s) : ℚ) ≤ (secToFrame s : ℚ) * 512 / 22050 := by
    rw [hfloor]
    have h1 := Int.floor_le (((secToFrame s * 512 : ℤ) : ℚ) / ((22050 : ℕ) : ℚ))
    push_cast at h1 ⊢
    linarith
  have hB : (secToFrame s : ℚ) * 512 / 22050 - 1 < (querySec (secToFrame s) : ℚ) := by
    rw [hfloor]
    have h1 := Int.sub_one_lt_floor (((secToFrame s * 512 : ℤ) : ℚ) / ((22050 : ℕ) : ℚ))
    push_cast at h1 ⊢
    linarith
  constructor
  · linarith
  · linarith

theorem c5_witness :
    (querySec (mkPosSample "P-C" "1" "MotifA" (21/2) 30 60).startF : ℚ) ≤ 21/2 + 256/22050 ∧
    (21/2 : ℚ) - 1 - 256/22050 <
      (querySec (mkPosSample "P-C" "1" "MotifA" (21/2) 30 60).startF : ℚ) :=
  c5_theorem (21/2) 30 60 "P-C" "1" "MotifA" (by norm_num)

/-- C6 fails on the code: `librosa.util.normalize(cqt_mag, axis=0)`
normalizes each column of the `(n_bins, n_frames)` CQT array — i.e. each
time frame across bins — not each frequency bin across time.  On the
concrete 2 x 2 magnitude array with bin rows `[1, 0]` and `[2, 4]`, the
written matrix has bin-row 0 equal to `[1/2, 0]`: its maximum across
frames is `1/2`, not `1`, and the row is not all-zero. -/
theorem c6_counterexample :
    ¬ (rowMaxAbs (convertOutput cqtC6) 0 = 1 ∨
       ∀ j, j < (convertOutput cqtC6).nFrames → (convertOutput cqtC6).entry 0 j = 0) := by
  have hr2 : List.range 2 = [0, 1] := rfl
  have hm0 : colMax (magM cqtC6) 0 = 2 := by
    show ((List.range 2).map (fun i => (magM cqtC6).entry i 0)).foldl max 0 = 2
    rw [hr2]
    simp only [List.map_cons, List.map_nil, List.foldl_cons, List.foldl_nil, magM, cqtC6]
    norm_num
  have hm1 : colMax (magM cqtC6) 1 = 4 := by
    show ((List.range 2).map (fun i => (magM cqtC6).entry i 1)).foldl max 0 = 4
    rw [hr2]
    simp only [List.map_cons, List.map_nil, List.foldl_cons, List.foldl_nil, magM, cqtC6]
    norm_num
  have he00 : (convertOutput cqtC6).entry 0 0 = 1/2 := by
    show (if colMax (magM cqtC6) 0 = 0 then (magM cqtC6).entry 0 0
          else (magM cqtC6).entry 0 0 / colMax (magM cqtC6) 0) = 1/2
    rw [hm0, if_neg (by norm_num)]
    simp only [magM, cqtC6]
    norm_num
  have he01 : (convertOutput cqtC6).entry 0 1 = 0 := by
    show (if colMax (magM cqtC6) 1 = 0 then (magM cqtC6).entry 0 1
          else (magM cqtC6).entry 0 1 / colMax (magM cqtC6) 1) = 0
    rw [hm1, if_neg (by norm_num)]
    simp only [magM, cqtC6]
    norm_num
  have hrma : rowMaxAbs (convertOutput cqtC6) 0 = 1/2 := by
    show ((List.range 2).map (fun j => |(convertOutput cqtC6).entry 0 j|)).foldl max 0 = 1/2
    rw [hr2]
    simp only [List.map_cons, List.map_nil, List.foldl_cons, List.foldl_nil, he00, he01]
    norm_num
  intro h
  rcases h with h | h
  · rw [hrma] at h
    norm_num at h
  · have h0 := h 0 (by decide)
    rw [he00] at h0
    norm_num at h0

/-- C6 amended: the normalization in `src/data/convert.py` is per time
frame, not per frequency bin: in the written matrix, every frame column
(across the bins of the `(n_bins, n_frames)` array) has maximum exactly
1, unless that frame's magnitudes are all zero, in which case the frame
column is written unchanged as all zeros. -/
theorem c6_theorem (S : CqtMat) (j : ℕ) :
    colMax (convertOutput S) j = 1 ∨
    ∀ i, i < S.nBins → (convertOutput S).entry i j = 0 := by
  by_cases hm : colMax (magM S) j = 0
  · right
    intro i hi
    show (maxNorm (magM S)).entry i j = 0
    have hentry : (maxNorm (magM S)).entry i j = (magM S).entry i j := by
      simp only [maxNorm]
      rw [if_pos hm]
    rw [hentry]
    unfold colMax at hm
    have hnn : ∀ x ∈ (List.range (magM S).nBins).map (fun i => (magM S).entry i j),
        0 ≤ x := by
      intro x hx
      obtain ⟨k, -, rfl⟩ := List.mem_map.mp hx
      exact abs_nonneg _
    have hall := (foldl_max_eq_zero_iff _ 0 le_rfl hnn).mp hm
    exact hall.2 _ (List.mem_map.mpr ⟨i, List.mem_range.mpr hi, rfl⟩)
  · left
    have hmnn : 0 ≤ colMax (magM S) j := by
      unfold colMax
      exact le_foldl_max _ 0
    have hmpos : 0 < colMax (magM S) j := lt_of_le_of_ne hmnn (Ne.symm hm)
    show colMax (maxNorm (magM S)) j = 1
    unfold colMax
    have hlist : (List.range (maxNorm (magM S)).nBins).map
          (fun i => (maxNorm (magM S)).entry i j)
        = ((List.range S.nBins).map (fun i => (magM S).entry i j)).map
            (· / colMax (magM S) j) := by
      rw [List.map_map]
      refine List.map_congr_left (fun i _ => ?_)
      show (maxNorm (magM S)).entry i j = (magM S).entry i j / colMax (magM S) j
      simp only [maxNorm]
      rw [if_neg hm]
    rw [hlist]
    rw [show (0 : ℚ) = 0 / colMax (magM S) j from (zero_div _).symm]
    rw [foldl_max_div _ _ hmpos 0]
    show colMax (magM S) j / colMax (magM S) j = 1
    exact div_self hm

theorem subsetIdx_mem_aux (d : LeitmotifDataset)
    (Pp : PosSample → Bool) (Pn : NegSample → Bool) (i : ℕ) :
    i ∈ (enumComp (fun i _ => i) Pp 0 d.samples ++
         (enumComp (fun i _ => i) Pn 0 d.none_samples).map (· + d.samples.length)) ↔
      ((∃ p, d.samples.get? i = some p ∧ Pp p = true) ∨
       (∃ j q, i = d.samples.length + j ∧ d.none_samples.get? j = some q ∧
          Pn q = true)) := by
  rw [List.mem_append]
  apply or_congr
  · rw [mem_enumComp]
    constructor
    · rintro ⟨k, a, hget, hPa, rfl⟩
      exact ⟨a, by simpa using hget, hPa⟩
    · rintro ⟨p, hget, hp⟩
      exact ⟨i, p, hget, hp, by omega⟩
  · rw [List.mem_map]
    constructor
    · rintro ⟨j, hj, rfl⟩
      obtain ⟨k, a, hget, hPa, rfl⟩ := (mem_enumComp _ _ _ _ _).mp hj
      exact ⟨k, a, by omega, by simpa using hget, hPa⟩
    · rintro ⟨j, q, rfl, hget, hq⟩
      exact ⟨j, (mem_enumComp _ _ _ _ _).mpr ⟨j, q, hget, hq, by omega⟩, by omega⟩

theorem subsetIdx_pairwise_aux (d : LeitmotifDataset)
    (Pp : PosSample → Bool) (Pn : NegSample → Bool) :
    (enumComp (fun i _ => i) Pp 0 d.samples ++
     (enumComp (fun i _ => i) Pn 0 d.none_samples).map
       (· + d.samples.length)).Pairwise (· < ·) := by
  rw [List.pairwise_append]
  refine ⟨enumComp_idx_pairwise _ _ 0, ?_, ?_⟩
  · exact List.Pairwise.map _ (fun a b hab => by omega)
      (enumComp_idx_pairwise _ _ 0)
  · intro x hx y hy
    have hxlt := mem_enumComp_idx_lt Pp d.samples 0 x hx
    obtain ⟨j, hj, rfl⟩ := List.mem_map.mp hy
    omega

/-- C8: `get_subset_idxs` with no filters returns exactly
`[0, ..., len(samples)+len(none_samples)-1]`; with filters it returns
exactly the global indices whose recording passes the version filter
(when given) and the act filter (when given) — positive indices as-is,
negative indices offset by `len(samples)` — and its output is always
strictly increasing: positives first, then negatives, each in
construction order. -/
theorem c8_theorem (d : LeitmotifDataset) (versions acts : Option (List String)) :
    get_subset_idxs d none none =
      List.range (d.samples.length + d.none_samples.length) ∧
    (∀ i : ℕ, i ∈ get_subset_idxs d versions acts ↔
      ((∃ p, d.samples.get? i = some p ∧ keepB versions acts p.version p.act = true) ∨
       (∃ j q, i = d.samples.length + j ∧ d.none_samples.get? j = some q ∧
          keepB versions acts q.version q.act = true))) ∧
    (get_subset_idxs d versions acts).Pairwise (· < ·) := by
  refine ⟨rfl, ?_, ?_⟩
  · intro i
    rcases versions with _ | vs <;> rcases acts with _ | as'
    · simp only [get_subset_idxs, keepB, Bool.and_self, List.mem_range]
      constructor
      · intro h
        by_cases hi : i < d.samples.length
        · obtain ⟨p, hp⟩ := (exists_get?_iff _ _).mpr hi
          exact Or.inl ⟨p, hp, trivial⟩
        · obtain ⟨q, hq⟩ := (exists_get?_iff d.none_samples (i - d.samples.length)).mpr
            (by omega)
          exact Or.inr ⟨i - d.samples.length, q, by omega, hq, trivial⟩
      · rintro (⟨p, hp, -⟩ | ⟨j, q, rfl, hq, -⟩)
        · have := (exists_get?_iff _ _).mp ⟨p, hp⟩
          omega
        · have := (exists_get?_iff _ _).mp ⟨q, hq⟩
          omega
    · rw [show get_subset_idxs d none (some as') =
          enumComp (fun i _ => i) (fun x => as'.contains x.act) 0 d.samples ++
          (enumComp (fun i _ => i) (fun x => as'.contains x.act) 0
            d.none_samples).map (· + d.samples.length) from rfl,
        subsetIdx_mem_aux]
      simp [keepB]
    · rw [show get_subset_idxs d (some vs) none =
          enumComp (fun i _ => i) (fun x => vs.contains x.version) 0 d.samples ++
          (enumComp (fun i _ => i) (fun x => vs.contains x.version) 0
            d.none_samples).map (· + d.samples.length) from rfl,
        subsetIdx_mem_aux]
      simp [keepB]
    · rw [show get_subset_idxs d (some vs) (some as') =
          enumComp (fun i _ => i)
            (fun x => vs.contains x.version && as'.contains x.act) 0 d.samples ++
          (enumComp (fun i _ => i)
            (fun x => vs.contains x.version && as'.contains x.act) 0
            d.none_samples).map (· + d.samples.length) from rfl,
        subsetIdx_mem_aux]
      simp [keepB]
  · rcases versions with _ | vs <;> rcases acts with _ | as'
    · exact List.pairwise_lt_range _
    · exact subsetIdx_pairwise_aux d _ _
    · exact subsetIdx_pairwise_aux d _ _
    · exact subsetIdx_pairwise_aux d _ _
